import Mathlib

/-!
Verification of the TARO repository's identifier-mapping builder
(`src/main/python/Utils/IDMapper.py`) and of the CSR / binary-search
behaviour exercised by `src/main/resources/flatbuffers/TestTaroModel.py`.

The Python classes are shallowly embedded: the `dict[str, int]` field
`_str_to_int` becomes an association list whose insertion order is the
dict's key order, the `list[str]` field `_int_to_str` becomes a `List
String`, exceptions become `Option` results (`none` = raise), and Python
`int` indices become `Int` so that negative indices are representable.
-/

namespace TARO

/-- Model of the Python dict `_str_to_int`: entries in insertion order. -/
abbrev Dict := List (String × Nat)

/-- Python `d[k]` on the dict model: value of the first entry with key `k`,
`none` when the key is absent (a `KeyError` in Python). -/
def dictLookup (d : Dict) (k : String) : Option Nat :=
  match d with
  | [] => none
  | (k0, v0) :: rest => if k0 = k then some v0 else dictLookup rest k

/-- Python `k in d` on the dict model: key membership. -/
def dictContains (d : Dict) (k : String) : Bool :=
  match d with
  | [] => false
  | (k0, _) :: rest => k0 = k || dictContains rest k

/-- Python `d[k] = v` on the dict model: overwrite the entry when the key
exists, append a fresh entry otherwise. -/
def dictInsert (d : Dict) (k : String) (v : Nat) : Dict :=
  match d with
  | [] => [(k, v)]
  | (k0, v0) :: rest =>
    if k0 = k then (k0, v) :: rest else (k0, v0) :: dictInsert rest k v

/-- State of `IDMapper`: the forward dict `_str_to_int` and the reverse
list `_int_to_str`. -/
structure IDMapper where
  str_to_int : Dict
  int_to_str : List String
deriving Repr, DecidableEq

/-- The state `IDMapper.__init__` builds: both containers empty. -/
def IDMapper.empty : IDMapper := ⟨[], []⟩

/-- Embedding of `IDMapper.get_or_create`: return the existing id when the
string is already mapped, otherwise assign `len(_int_to_str)` as the new id,
record it in the dict and append the string to the reverse list.  Returns
the id together with the post-call state. -/
def get_or_create (m : IDMapper) (external_id : String) : Nat × IDMapper :=
  if dictContains m.str_to_int external_id then
    ((dictLookup m.str_to_int external_id).getD 0, m)
  else
    let new_id := m.int_to_str.length
    (new_id,
      ⟨dictInsert m.str_to_int external_id new_id, m.int_to_str ++ [external_id]⟩)

/-- Embedding of `IDMapper.to_internal`: dict lookup, `none` models the
`KeyError` raised on an unregistered external id. -/
def to_internal (m : IDMapper) (external_id : String) : Option Nat :=
  dictLookup m.str_to_int external_id

/-- Python list indexing `l[i]` for an `int` index `i`: wraps a negative
index `i` to `len(l) + i` when that lands in range, and raises `IndexError`
(here `none`) when the index is out of range on both ends. -/
def pyListGet (l : List String) (i : Int) : Option String :=
  if 0 ≤ i then l[i.toNat]?
  else if 0 ≤ i + l.length then l[(i + l.length).toNat]?
  else none

/-- Embedding of `IDMapper.to_external`: a negative id is explicitly
rejected before the list is indexed, so a negative id never wraps; an id
at or past `len(_int_to_str)` fails the list read (`IndexError`). -/
def to_external (m : IDMapper) (internal_id : Int) : Option String :=
  if internal_id < 0 then none
  else pyListGet m.int_to_str internal_id

/-- Embedding of `IDMapper.contains_external`. -/
def contains_external (m : IDMapper) (external_id : String) : Bool :=
  dictContains m.str_to_int external_id

/-- Embedding of `IDMapper.contains_internal`: `0 <= internal_id < len(_int_to_str)`. -/
def contains_internal (m : IDMapper) (internal_id : Int) : Bool :=
  0 ≤ internal_id && internal_id < m.int_to_str.length

/-- Embedding of `IDMapper.size`: `len(_int_to_str)`. -/
def size (m : IDMapper) : Nat := m.int_to_str.length

/-- Embedding of `IDMapper.export_mappings` as a pure value: the returned
dict's contents (`_str_to_int.copy()`).  Object-identity aspects of the
copy are modelled separately with an explicit heap below. -/
def export_mappings (m : IDMapper) : Dict := m.str_to_int

/-- Run a whole sequence of `get_or_create` calls, keeping only the state. -/
def runAll (m : IDMapper) (xs : List String) : IDMapper :=
  match xs with
  | [] => m
  | x :: rest => runAll (get_or_create m x).2 rest

/-- Keys of the dict model, in insertion order. -/
def dictKeys (d : Dict) : List String := d.map Prod.fst

theorem dictContains_eq_isSome (d : Dict) (k : String) :
    dictContains d k = (dictLookup d k).isSome := by
  induction d with
  | nil => rfl
  | cons p rest ih =>
    obtain ⟨k0, v0⟩ := p
    by_cases h : k0 = k <;> simp [dictContains, dictLookup, h, ih]

theorem dictContains_iff_mem_keys (d : Dict) (k : String) :
    dictContains d k = true ↔ k ∈ dictKeys d := by
  induction d with
  | nil => simp [dictContains, dictKeys]
  | cons p rest ih =>
    obtain ⟨k0, v0⟩ := p
    by_cases h : k0 = k
    · simp [dictContains, dictKeys, h, ih]
    · simp [dictContains, dictKeys, h, ih]
      tauto

theorem dictLookup_append_of_some {d : Dict} {k : String} {v : Nat} (e : Dict)
    (h : dictLookup d k = some v) : dictLookup (d ++ e) k = some v := by
  induction d with
  | nil => simp [dictLookup] at h
  | cons p rest ih =>
    obtain ⟨k0, v0⟩ := p
    by_cases hk : k0 = k <;> simp_all [dictLookup, hk]

theorem dictLookup_append_of_none {d : Dict} {k : String} (e : Dict)
    (h : dictLookup d k = none) : dictLookup (d ++ e) k = dictLookup e k := by
  induction d with
  | nil => rfl
  | cons p rest ih =>
    obtain ⟨k0, v0⟩ := p
    by_cases hk : k0 = k <;> simp_all [dictLookup, hk]

theorem dictInsert_of_not_contains {d : Dict} {k : String} (v : Nat)
    (h : dictContains d k = false) : dictInsert d k v = d ++ [(k, v)] := by
  induction d with
  | nil => rfl
  | cons p rest ih =>
    obtain ⟨k0, v0⟩ := p
    simp [dictContains] at h
    simp [dictInsert, h.1, ih h.2]

theorem get_or_create_of_found {m : IDMapper} {x : String} {v : Nat}
    (h : dictLookup m.str_to_int x = some v) : get_or_create m x = (v, m) := by
  have hc : dictContains m.str_to_int x = true := by
    rw [dictContains_eq_isSome, h]; rfl
  simp [get_or_create, hc, h]

theorem get_or_create_of_fresh {m : IDMapper} {x : String}
    (h : dictContains m.str_to_int x = false) :
    get_or_create m x =
      (size m, ⟨m.str_to_int ++ [(x, size m)], m.int_to_str ++ [x]⟩) := by
  simp [get_or_create, h, dictInsert_of_not_contains _ h, size]

theorem lookup_get_or_create_self (m : IDMapper) (x : String) :
    dictLookup (get_or_create m x).2.str_to_int x = some (get_or_create m x).1 := by
  rcases hl : dictLookup m.str_to_int x with _ | v
  · have hc : dictContains m.str_to_int x = false := by
      rw [dictContains_eq_isSome, hl]; rfl
    rw [get_or_create_of_fresh hc]
    simp only []
    rw [dictLookup_append_of_none _ hl]
    simp [dictLookup]
  · rw [get_or_create_of_found hl]
    exact hl

theorem lookup_get_or_create_stable {m : IDMapper} {y : String} {v : Nat} (x : String)
    (h : dictLookup m.str_to_int y = some v) :
    dictLookup (get_or_create m x).2.str_to_int y = some v := by
  rcases hc : dictContains m.str_to_int x with _ | _
  · rw [get_or_create_of_fresh hc]
    exact dictLookup_append_of_some _ h
  · rcases hl : dictLookup m.str_to_int x with _ | w
    · rw [dictContains_eq_isSome, hl] at hc; simp at hc
    · rw [get_or_create_of_found hl]; exact h

theorem lookup_runAll_stable {m : IDMapper} {y : String} {v : Nat} (ys : List String)
    (h : dictLookup m.str_to_int y = some v) :
    dictLookup (runAll m ys).str_to_int y = some v := by
  induction ys generalizing m with
  | nil => exact h
  | cons z zs ih => exact ih (lookup_get_or_create_stable z h)

/-- Representation invariant tying the forward dict to the reverse list:
equal sizes, the string at reverse position `i` looks up to `i`, and a
string looking up to `i` sits at reverse position `i`. -/
def Wf (m : IDMapper) : Prop :=
  m.str_to_int.length = m.int_to_str.length ∧
  (∀ i x, m.int_to_str[i]? = some x → dictLookup m.str_to_int x = some i) ∧
  (∀ x i, dictLookup m.str_to_int x = some i → m.int_to_str[i]? = some x)

theorem wf_empty : Wf IDMapper.empty := by
  refine ⟨rfl, ?_, ?_⟩
  · intro i x h; simp [IDMapper.empty] at h
  · intro x i h; simp [IDMapper.empty, dictLookup] at h

theorem lookup_none_of_not_contains {m : IDMapper} {x : String}
    (hc : dictContains m.str_to_int x = false) : dictLookup m.str_to_int x = none := by
  rcases hl : dictLookup m.str_to_int x with _ | w
  · rfl
  · rw [dictContains_eq_isSome, hl] at hc; simp at hc

theorem wf_get_or_create {m : IDMapper} (x : String) (h : Wf m) :
    Wf (get_or_create m x).2 := by
  obtain ⟨hlen, hfwd, hbwd⟩ := h
  rcases hc : dictContains m.str_to_int x with _ | _
  · have hstate : (get_or_create m x).2 =
        ⟨m.str_to_int ++ [(x, size m)], m.int_to_str ++ [x]⟩ := by
      rw [get_or_create_of_fresh hc]
    have hnone : dictLookup m.str_to_int x = none := lookup_none_of_not_contains hc
    rw [hstate]
    refine ⟨by simp [hlen, size], ?_, ?_⟩
    · intro i y hy
      simp only [] at hy ⊢
      by_cases hi : i < m.int_to_str.length
      · rw [List.getElem?_append_left hi] at hy
        exact dictLookup_append_of_some _ (hfwd i y hy)
      · have hi' : i = m.int_to_str.length := by
          rcases Nat.lt_or_ge i (m.int_to_str ++ [x]).length with hlt | hge
          · simp at hlt; omega
          · rw [List.getElem?_eq_none hge] at hy; simp at hy
        subst hi'
        rw [List.getElem?_concat_length] at hy
        have hy' : x = y := by simpa using hy
        subst hy'
        rw [dictLookup_append_of_none _ hnone]
        simp [dictLookup, size]
    · intro y i hy
      simp only [] at hy ⊢
      rcases hl : dictLookup m.str_to_int y with _ | w
      · rw [dictLookup_append_of_none _ hl] at hy
        simp [dictLookup, size] at hy
        rcases hy with ⟨hxy, hiy⟩
        subst hxy
        rw [← hiy, List.getElem?_concat_length]
      · rw [dictLookup_append_of_some _ hl] at hy
        have hw : w = i := by simpa using hy
        subst hw
        have hrev := hbwd y w hl
        have hlt : w < m.int_to_str.length := by
          rcases Nat.lt_or_ge w m.int_to_str.length with hlt | hge
          · exact hlt
          · rw [List.getElem?_eq_none hge] at hrev; simp at hrev
        rw [List.getElem?_append_left hlt]
        exact hrev
  · rcases hl : dictLookup m.str_to_int x with _ | w
    · rw [dictContains_eq_isSome, hl] at hc; simp at hc
    · rw [get_or_create_of_found hl]
      exact ⟨hlen, hfwd, hbwd⟩

theorem wf_runAll (m : IDMapper) (xs : List String) (h : Wf m) : Wf (runAll m xs) := by
  induction xs generalizing m with
  | nil => exact h
  | cons z zs ih => exact ih _ (wf_get_or_create z h)

theorem size_get_or_create (m : IDMapper) (x : String) :
    size (get_or_create m x).2 =
      if contains_external m x = true then size m else size m + 1 := by
  rcases hc : dictContains m.str_to_int x with _ | _
  · rw [get_or_create_of_fresh hc]
    simp [size, contains_external, hc]
  · rcases hl : dictLookup m.str_to_int x with _ | w
    · rw [dictContains_eq_isSome, hl] at hc; simp at hc
    · rw [get_or_create_of_found hl]
      simp [contains_external, hc]

theorem keys_toFinset_get_or_create (m : IDMapper) (x : String) :
    (dictKeys (get_or_create m x).2.str_to_int).toFinset =
      insert x (dictKeys m.str_to_int).toFinset := by
  rcases hc : dictContains m.str_to_int x with _ | _
  · rw [get_or_create_of_fresh hc]
    simp [dictKeys]
    rw [Finset.union_comm]
    rfl
  · rcases hl : dictLookup m.str_to_int x with _ | w
    · rw [dictContains_eq_isSome, hl] at hc; simp at hc
    · rw [get_or_create_of_found hl]
      have hmem : x ∈ (dictKeys m.str_to_int).toFinset := by
        rw [List.mem_toFinset]
        exact (dictContains_iff_mem_keys _ _).mp hc
      rw [Finset.insert_eq_self.mpr hmem]

theorem size_runAll (m : IDMapper) (xs : List String) :
    size (runAll m xs) =
      size m + (xs.toFinset \ (dictKeys m.str_to_int).toFinset).card := by
  induction xs generalizing m with
  | nil => simp [runAll]
  | cons x xs ih =>
    have hstep : runAll m (x :: xs) = runAll (get_or_create m x).2 xs := rfl
    rw [hstep, ih, size_get_or_create, keys_toFinset_get_or_create]
    by_cases hc : contains_external m x = true
    · have hmem : x ∈ (dictKeys m.str_to_int).toFinset := by
        rw [List.mem_toFinset]
        exact (dictContains_iff_mem_keys _ _).mp hc
      rw [if_pos hc, Finset.insert_eq_self.mpr hmem, List.toFinset_cons,
        Finset.insert_sdiff_of_mem _ hmem]
    · have hmem : x ∉ (dictKeys m.str_to_int).toFinset := by
        rw [List.mem_toFinset]
        intro hx
        exact hc ((dictContains_iff_mem_keys _ _).mpr hx)
      rw [if_neg hc, List.toFinset_cons, Finset.sdiff_insert]
      have hxin : x ∈ insert x xs.toFinset \ (dictKeys m.str_to_int).toFinset := by
        rw [Finset.mem_sdiff]
        exact ⟨Finset.mem_insert_self x _, hmem⟩
      have hins : insert x xs.toFinset \ (dictKeys m.str_to_int).toFinset =
          insert x (xs.toFinset \ (dictKeys m.str_to_int).toFinset) := by
        ext y
        simp only [Finset.mem_sdiff, Finset.mem_insert]
        constructor
        · rintro ⟨hy | hy, hnk⟩
          · exact Or.inl hy
          · exact Or.inr ⟨hy, hnk⟩
        · rintro (hy | ⟨hy, hnk⟩)
          · subst hy; exact ⟨Or.inl rfl, hmem⟩
          · exact ⟨Or.inr hy, hnk⟩
      rw [hins]
      have herase :
          ((insert x (xs.toFinset \ (dictKeys m.str_to_int).toFinset)).erase x).card + 1 =
            (insert x (xs.toFinset \ (dictKeys m.str_to_int).toFinset)).card :=
        Finset.card_erase_add_one (Finset.mem_insert_self x _)
      rw [Finset.erase_insert_eq_erase] at herase
      omega

/-- C1: for every sequence of `get_or_create` calls on an `IDMapper`,
calling `get_or_create` twice with the same external string yields the same
internal id (even with arbitrary further calls in between), a call with a
not-yet-mapped external string returns an id equal to the mapper's size
before the call, and after the sequence `size` equals the number of
distinct external strings seen. -/
theorem getOrCreate_consistency_and_size (xs ys : List String) (x : String) :
    (get_or_create (runAll IDMapper.empty xs) x).1 =
      (get_or_create (runAll (get_or_create (runAll IDMapper.empty xs) x).2 ys) x).1 ∧
    (contains_external (runAll IDMapper.empty xs) x = false →
      (get_or_create (runAll IDMapper.empty xs) x).1 = size (runAll IDMapper.empty xs)) ∧
    size (runAll IDMapper.empty xs) = xs.toFinset.card := by
  refine ⟨?_, ?_, ?_⟩
  · have hself := lookup_get_or_create_self (runAll IDMapper.empty xs) x
    have hstable := lookup_runAll_stable ys hself
    rw [get_or_create_of_found hstable]
  · intro hc
    rw [get_or_create_of_fresh hc]
  · rw [size_runAll]
    simp [IDMapper.empty, size, dictKeys]

theorem to_external_natCast (m : IDMapper) (j : Nat) :
    to_external m (j : Int) = m.int_to_str[j]? := by
  simp only [to_external, pyListGet]
  rw [if_neg (by omega), if_pos (by omega), Int.toNat_natCast]

/-- C2: for every string `x` and every reachable `IDMapper` state,
`to_external (get_or_create x) = x`; strings are arbitrary (unicode,
any length). -/
theorem toExternal_getOrCreate_roundtrip (m : IDMapper) (x : String) (hwf : Wf m) :
    to_external (get_or_create m x).2 ((get_or_create m x).1 : Int) = some x := by
  obtain ⟨hlen, hfwd, hbwd⟩ := hwf
  rcases hc : dictContains m.str_to_int x with _ | _
  · rw [get_or_create_of_fresh hc]
    rw [to_external_natCast]
    simp only [size]
    rw [List.getElem?_concat_length]
  · rcases hl : dictLookup m.str_to_int x with _ | w
    · rw [dictContains_eq_isSome, hl] at hc; simp at hc
    · rw [get_or_create_of_found hl]
      rw [to_external_natCast]
      exact hbwd x w hl

/-- C2 witness: the round trip at a concrete unicode string on the empty
mapper. -/
theorem toExternal_getOrCreate_roundtrip_witness :
    to_external (get_or_create IDMapper.empty "Tōkyō_東京").2
      ((get_or_create IDMapper.empty "Tōkyō_東京").1 : Int) = some "Tōkyō_東京" :=
  toExternal_getOrCreate_roundtrip IDMapper.empty "Tōkyō_東京" wf_empty

/-- C4: `to_internal` fails exactly on unregistered external strings (no
default value), and on a string just registered by `get_or_create` it
returns the assigned internal id. -/
theorem toInternal_fail_fast (m : IDMapper) (x : String) :
    (to_internal m x = none ↔ contains_external m x = false) ∧
    to_internal (get_or_create m x).2 x = some (get_or_create m x).1 := by
  constructor
  · rw [to_internal, contains_external, dictContains_eq_isSome]
    cases dictLookup m.str_to_int x <;> simp
  · exact lookup_get_or_create_self m x

/-- C8: after every sequence of operations the `IDMapper` invariant holds:
the reverse list at position `i` is exactly the external string whose
forward-mapped value is `i`, and the two containers have equal length. -/
theorem idmapper_invariant (xs : List String) :
    (runAll IDMapper.empty xs).str_to_int.length =
        (runAll IDMapper.empty xs).int_to_str.length ∧
    (∀ i x, (runAll IDMapper.empty xs).int_to_str[i]? = some x →
      dictLookup (runAll IDMapper.empty xs).str_to_int x = some i) ∧
    (∀ x i, dictLookup (runAll IDMapper.empty xs).str_to_int x = some i →
      (runAll IDMapper.empty xs).int_to_str[i]? = some x) :=
  wf_runAll IDMapper.empty xs wf_empty

/-- C9: `to_internal` and `to_external` are mutually inverse on the
registered range: every internal id below `size` maps to a string that
maps back to it. -/
theorem toExternal_toInternal_inverse (m : IDMapper) (i : Nat) (hwf : Wf m)
    (hi : i < size m) :
    ∃ s, to_external m (i : Int) = some s ∧ to_internal m s = some i := by
  obtain ⟨hlen, hfwd, hbwd⟩ := hwf
  have hi' : i < m.int_to_str.length := hi
  have hs : m.int_to_str[i]? = some (m.int_to_str.get ⟨i, hi'⟩) := by
    rw [List.getElem?_eq_getElem hi']
    rfl
  refine ⟨m.int_to_str.get ⟨i, hi'⟩, ?_, hfwd i _ hs⟩
  rw [to_external_natCast, hs]

/-- C9 witness: the inverse property at internal id 0 of a mapper holding
one string. -/
theorem toExternal_toInternal_inverse_witness :
    ∃ s, to_external (runAll IDMapper.empty ["A"]) (0 : Int) = some s ∧
      to_internal (runAll IDMapper.empty ["A"]) s = some 0 :=
  toExternal_toInternal_inverse (runAll IDMapper.empty ["A"]) 0
    (wf_runAll IDMapper.empty ["A"] wf_empty) (by decide)

/-- C10: `get_or_create` never disturbs existing assignments: previously
assigned ids keep their `to_external` value, previously registered strings
keep their `to_internal` value, `size` stays equal when the argument was
already registered and grows by exactly one otherwise, and
`contains_internal` holds exactly on `0 ≤ i < size`. -/
theorem getOrCreate_frame (m : IDMapper) (y x : String) (j : Nat) (i : Int)
    (hj : j < size m) (hx : contains_external m x = true) :
    to_external (get_or_create m y).2 (j : Int) = to_external m (j : Int) ∧
    to_internal (get_or_create m y).2 x = to_internal m x ∧
    size (get_or_create m y).2 =
      (if contains_external m y = true then size m else size m + 1) ∧
    (contains_internal (get_or_create m y).2 i = true ↔
      0 ≤ i ∧ i < (size (get_or_create m y).2 : Int)) := by
  refine ⟨?_, ?_, size_get_or_create m y, ?_⟩
  · rw [to_external_natCast, to_external_natCast]
    rcases hc : dictContains m.str_to_int y with _ | _
    · rw [get_or_create_of_fresh hc]
      exact List.getElem?_append_left hj
    · rcases hl : dictLookup m.str_to_int y with _ | w
      · rw [dictContains_eq_isSome, hl] at hc; simp at hc
      · rw [get_or_create_of_found hl]
  · rcases hl : dictLookup m.str_to_int x with _ | w
    · rw [contains_external, dictContains_eq_isSome, hl] at hx; simp at hx
    · rw [to_internal, to_internal, hl, lookup_get_or_create_stable y hl]
  · simp only [contains_internal, Bool.and_eq_true, decide_eq_true_eq, size]

/-- C3: `to_external` fails exactly when the internal id is negative or at
least `size`; in particular `to_external (-1)` and `to_external size` fail,
and raw Python list indexing at `-1` would instead have wrapped to the last
element, which the explicit negative check suppresses. -/
theorem toExternal_out_of_range (m : IDMapper) (i : Int) :
    (to_external m i = none ↔ i < 0 ∨ (size m : Int) ≤ i) ∧
    to_external m (-1) = none ∧
    to_external m (size m : Int) = none ∧
    pyListGet m.int_to_str (-1) = m.int_to_str.getLast? := by
  refine ⟨?_, ?_, ?_, ?_⟩
  · simp only [size]
    by_cases hi : i < 0
    · simp [to_external, hi]
    · simp only [to_external, pyListGet, if_neg hi, if_pos (by omega : 0 ≤ i)]
      constructor
      · intro h
        have := List.getElem?_eq_none_iff.mp h
        omega
      · intro h
        refine List.getElem?_eq_none_iff.mpr ?_
        omega
  · simp [to_external]
  · rw [to_external_natCast]
    exact List.getElem?_eq_none_iff.mpr (by simp [size])
  · rcases hl : m.int_to_str with _ | ⟨a, rest⟩
    · rfl
    · have hlen : 0 < (a :: rest).length := by simp
      simp only [pyListGet]
      rw [if_neg (by omega), if_pos (by omega)]
      rw [List.getLast?_eq_getElem?]
      congr 1
      omega

/-- C10 witness: the frame property at a concrete one-string mapper. -/
theorem getOrCreate_frame_witness :
    to_external (get_or_create (runAll IDMapper.empty ["A"]) "B").2 (0 : Int) =
        to_external (runAll IDMapper.empty ["A"]) (0 : Int) ∧
    to_internal (get_or_create (runAll IDMapper.empty ["A"]) "B").2 "A" =
        to_internal (runAll IDMapper.empty ["A"]) "A" ∧
    size (get_or_create (runAll IDMapper.empty ["A"]) "B").2 =
      (if contains_external (runAll IDMapper.empty ["A"]) "B" = true then
        size (runAll IDMapper.empty ["A"]) else size (runAll IDMapper.empty ["A"]) + 1) ∧
    (contains_internal (get_or_create (runAll IDMapper.empty ["A"]) "B").2 (0 : Int) = true ↔
      0 ≤ (0 : Int) ∧ (0 : Int) < (size (get_or_create (runAll IDMapper.empty ["A"]) "B").2 : Int)) :=
  getOrCreate_frame (runAll IDMapper.empty ["A"]) "B" "A" 0 0 (by decide) (by decide)

/-! Heap model for the object-identity side of `export_mappings`.  Python
dicts are heap objects reachable through references; `_str_to_int.copy()`
allocates a fresh dict object holding the same entries.  A `Heap` is the
store of dict objects, a reference is an index into it, and `RefMapper` is
the `IDMapper` object holding a reference to its forward dict (the reverse
list plays no role in the export and is kept by value). -/

/-- Store of Python dict objects; a reference is an index into `cells`. -/
structure Heap where
  cells : List Dict
deriving Repr

/-- Dereference a dict object. -/
def Heap.read (h : Heap) (r : Nat) : Dict := (h.cells[r]?).getD []

/-- Mutate the dict object behind reference `r` in place. -/
def Heap.write (h : Heap) (r : Nat) (d : Dict) : Heap := ⟨h.cells.set r d⟩

/-- Allocate a fresh dict object, returning its reference. -/
def Heap.alloc (h : Heap) (d : Dict) : Nat × Heap := (h.cells.length, ⟨h.cells ++ [d]⟩)

/-- The `IDMapper` object with its forward dict held by reference. -/
structure RefMapper where
  fwd : Nat
  rev : List String
deriving Repr

/-- A mapper whose forward reference points into the heap. -/
def RefMapper.Valid (h : Heap) (m : RefMapper) : Prop := m.fwd < h.cells.length

/-- Heap-level `size`. -/
def sizeR (m : RefMapper) : Nat := m.rev.length

/-- Heap-level `to_internal`. -/
def to_internalR (h : Heap) (m : RefMapper) (x : String) : Option Nat :=
  dictLookup (h.read m.fwd) x

/-- Heap-level `to_external`. -/
def to_externalR (m : RefMapper) (i : Int) : Option String :=
  if i < 0 then none else pyListGet m.rev i

/-- Heap-level `contains_external`. -/
def contains_externalR (h : Heap) (m : RefMapper) (x : String) : Bool :=
  dictContains (h.read m.fwd) x

/-- Heap-level `contains_internal`. -/
def contains_internalR (m : RefMapper) (i : Int) : Bool :=
  0 ≤ i && i < m.rev.length

/-- Heap-level `export_mappings`: `self._str_to_int.copy()` allocates a new
dict object with the same entries and returns its reference. -/
def export_mappingsR (h : Heap) (m : RefMapper) : Nat × Heap :=
  h.alloc (h.read m.fwd)

/-- Heap-level `get_or_create`: mutates the forward dict object in place
and appends to the reverse list. -/
def get_or_createR (h : Heap) (m : RefMapper) (x : String) : Nat × Heap × RefMapper :=
  let d := h.read m.fwd
  if dictContains d x then ((dictLookup d x).getD 0, h, m)
  else
    let new_id := m.rev.length
    (new_id, h.write m.fwd (dictInsert d x new_id), ⟨m.fwd, m.rev ++ [x]⟩)

theorem heap_read_alloc (h : Heap) (d : Dict) :
    (h.alloc d).2.read (h.alloc d).1 = d := by
  simp [Heap.alloc, Heap.read, List.getElem?_concat_length]

theorem heap_read_write_ne (h : Heap) (r s : Nat) (d : Dict) (hne : r ≠ s) :
    (h.write r d).read s = h.read s := by
  simp only [Heap.write, Heap.read]
  rw [List.getElem?_set_ne hne]

theorem heap_read_alloc_old (h : Heap) (d : Dict) (s : Nat) (hs : s < h.cells.length) :
    (h.alloc d).2.read s = h.read s := by
  simp only [Heap.alloc, Heap.read]
  rw [List.getElem?_append_left hs]

/-- C5: `export_mappings` returns a dict equal to the builder's forward
mapping at the time of the call, held in a freshly allocated object; any
subsequent mutation of the exported object leaves every builder observation
(`to_internal`, `contains_external`, `size`, `to_external`,
`contains_internal`) unchanged, and any subsequent `get_or_create` call on
the builder leaves the exported object unchanged. -/
theorem export_mappings_isolated (h : Heap) (m : RefMapper) (hv : RefMapper.Valid h m) :
    (export_mappingsR h m).2.read (export_mappingsR h m).1 = h.read m.fwd ∧
    (export_mappingsR h m).1 ≠ m.fwd ∧
    (∀ d : Dict, ∀ x : String, ∀ i : Int,
      to_internalR ((export_mappingsR h m).2.write (export_mappingsR h m).1 d) m x =
          to_internalR h m x ∧
      contains_externalR ((export_mappingsR h m).2.write (export_mappingsR h m).1 d) m x =
          contains_externalR h m x ∧
      sizeR m = sizeR m ∧
      to_externalR m i = to_externalR m i ∧
      contains_internalR m i = contains_internalR m i) ∧
    (∀ y : String,
      (get_or_createR (export_mappingsR h m).2 m y).2.1.read (export_mappingsR h m).1 =
        (export_mappingsR h m).2.read (export_mappingsR h m).1) := by
  have hne : (export_mappingsR h m).1 ≠ m.fwd := by
    simp only [export_mappingsR, Heap.alloc]
    exact fun he => absurd he.symm (Nat.ne_of_lt hv)
  refine ⟨heap_read_alloc h _, hne, ?_, ?_⟩
  · intro d x i
    have hr : ((export_mappingsR h m).2.write (export_mappingsR h m).1 d).read m.fwd =
        (export_mappingsR h m).2.read m.fwd :=
      heap_read_write_ne _ _ _ _ hne
    have ho : (export_mappingsR h m).2.read m.fwd = h.read m.fwd :=
      heap_read_alloc_old h _ m.fwd hv
    refine ⟨?_, ?_, rfl, rfl, rfl⟩
    · simp only [to_internalR, hr, ho]
    · simp only [contains_externalR, hr, ho]
  · intro y
    simp only [get_or_createR]
    by_cases hc : dictContains ((export_mappingsR h m).2.read m.fwd) y = true
    · rw [if_pos hc]
    · rw [if_neg hc]
      exact heap_read_write_ne _ _ _ _ (fun he => hne he.symm)

/-- C5 witness: isolation at a concrete one-entry heap and mapper. -/
theorem export_mappings_isolated_witness :
    (export_mappingsR ⟨[[("A", 0)]]⟩ ⟨0, ["A"]⟩).2.read
        (export_mappingsR ⟨[[("A", 0)]]⟩ ⟨0, ["A"]⟩).1 =
      Heap.read ⟨[[("A", 0)]]⟩ 0 ∧
    (export_mappingsR ⟨[[("A", 0)]]⟩ ⟨0, ["A"]⟩).1 ≠ 0 ∧
    (∀ d : Dict, ∀ x : String, ∀ i : Int,
      to_internalR ((export_mappingsR ⟨[[("A", 0)]]⟩ ⟨0, ["A"]⟩).2.write
          (export_mappingsR ⟨[[("A", 0)]]⟩ ⟨0, ["A"]⟩).1 d) ⟨0, ["A"]⟩ x =
        to_internalR ⟨[[("A", 0)]]⟩ ⟨0, ["A"]⟩ x ∧
      contains_externalR ((export_mappingsR ⟨[[("A", 0)]]⟩ ⟨0, ["A"]⟩).2.write
          (export_mappingsR ⟨[[("A", 0)]]⟩ ⟨0, ["A"]⟩).1 d) ⟨0, ["A"]⟩ x =
        contains_externalR ⟨[[("A", 0)]]⟩ ⟨0, ["A"]⟩ x ∧
      sizeR ⟨0, ["A"]⟩ = sizeR ⟨0, ["A"]⟩ ∧
      to_externalR ⟨0, ["A"]⟩ i = to_externalR ⟨0, ["A"]⟩ i ∧
      contains_internalR ⟨0, ["A"]⟩ i = contains_internalR ⟨0, ["A"]⟩ i) ∧
    (∀ y : String,
      (get_or_createR (export_mappingsR ⟨[[("A", 0)]]⟩ ⟨0, ["A"]⟩).2 ⟨0, ["A"]⟩ y).2.1.read
          (export_mappingsR ⟨[[("A", 0)]]⟩ ⟨0, ["A"]⟩).1 =
        (export_mappingsR ⟨[[("A", 0)]]⟩ ⟨0, ["A"]⟩).2.read
          (export_mappingsR ⟨[[("A", 0)]]⟩ ⟨0, ["A"]⟩).1) :=
  export_mappings_isolated ⟨[[("A", 0)]]⟩ ⟨0, ["A"]⟩
    (show (0 : Nat) < 1 by decide)

/-! Binary search of `test_id_mapping_binary_search` in `TestTaroModel.py`
and the CSR arrays of `test_csr_graph_traversal`. -/

/-- Loop of `find_internal_id`: `left` and `right` are Python ints (so
`right` may become `-1`), `(left + right) // 2` is floor division, which
Lean's `Int` division matches for the divisor `2` on the nonnegative
operands the search produces, and `external_ids[mid]` is the array read.
`fuel` bounds the iteration count; the wrapper passes enough fuel that the
loop always runs to completion. -/
def bsearchLoop (a : List Int) (x : Int) : Nat → Int → Int → Int
  | 0, _, _ => -1
  | fuel + 1, left, right =>
    if left ≤ right then
      let mid := (left + right) / 2
      let midVal := a.getD mid.toNat 0
      if midVal = x then mid
      else if midVal < x then bsearchLoop a x fuel (mid + 1) right
      else bsearchLoop a x fuel left (mid - 1)
    else -1

/-- Embedding of `find_internal_id`: binary search between `0` and
`ExternalIdsLength() - 1`, returning the position or the sentinel `-1`. -/
def find_internal_id (a : List Int) (x : Int) : Int :=
  bsearchLoop a x (a.length + 1) 0 ((a.length : Int) - 1)

theorem bsearchLoop_found (a : List Int) (x : Int) (hs : a.Pairwise (· < ·)) :
    ∀ fuel : Nat, ∀ left right : Int, ∀ i : Nat, ∀ hi : i < a.length,
      a.get ⟨i, hi⟩ = x → 0 ≤ left → left ≤ (i : Int) → (i : Int) ≤ right →
      right < (a.length : Int) → (right - left).toNat < fuel →
      bsearchLoop a x fuel left right = (i : Int) := by
  intro fuel
  induction fuel with
  | zero => intro left right i hi _ _ _ _ _ hfuel; omega
  | succ fuel ih =>
    intro left right i hi hx h0 hli hir hr hfuel
    have hlr : left ≤ right := le_trans hli hir
    rw [bsearchLoop, if_pos hlr]
    set mid := (left + right) / 2 with hmid
    have hmid0 : 0 ≤ mid := by omega
    have hmidl : left ≤ mid := by omega
    have hmidr : mid ≤ right := by omega
    have hmidlt : mid.toNat < a.length := by omega
    have hgetD : a.getD mid.toNat 0 = a.get ⟨mid.toNat, hmidlt⟩ :=
      List.getD_eq_get a 0 hmidlt
    simp only [hgetD]
    rcases lt_trichotomy (mid.toNat) i with hlt | heq | hgt
    · have hless : a.get ⟨mid.toNat, hmidlt⟩ < a.get ⟨i, hi⟩ :=
        List.pairwise_iff_get.mp hs ⟨mid.toNat, hmidlt⟩ ⟨i, hi⟩ hlt
      rw [hx] at hless
      rw [if_neg (by omega), if_pos hless]
      exact ih (mid + 1) right i hi hx (by omega) (by omega) hir hr (by omega)
    · have hf : (⟨mid.toNat, hmidlt⟩ : Fin a.length) = ⟨i, hi⟩ := Fin.ext heq
      rw [if_pos (by rw [hf]; exact hx)]
      omega
    · have hmore : a.get ⟨i, hi⟩ < a.get ⟨mid.toNat, hmidlt⟩ :=
        List.pairwise_iff_get.mp hs ⟨i, hi⟩ ⟨mid.toNat, hmidlt⟩ hgt
      rw [hx] at hmore
      rw [if_neg (by omega), if_neg (by omega)]
      exact ih left (mid - 1) i hi hx h0 hli (by omega) (by omega) (by omega)

theorem bsearchLoop_notMem (a : List Int) (x : Int) (hx : x ∉ a) :
    ∀ fuel : Nat, ∀ left right : Int, 0 ≤ left → right < (a.length : Int) →
      bsearchLoop a x fuel left right = -1 := by
  intro fuel
  induction fuel with
  | zero => intro left right _ _; rfl
  | succ fuel ih =>
    intro left right h0 hr
    by_cases hlr : left ≤ right
    · rw [bsearchLoop, if_pos hlr]
      set mid := (left + right) / 2 with hmid
      have hmidlt : mid.toNat < a.length := by omega
      have hgetD : a.getD mid.toNat 0 = a.get ⟨mid.toNat, hmidlt⟩ :=
        List.getD_eq_get a 0 hmidlt
      simp only [hgetD]
      have hne : a.get ⟨mid.toNat, hmidlt⟩ ≠ x := by
        intro he
        exact hx (he ▸ List.get_mem a mid.toNat hmidlt)
      rw [if_neg hne]
      by_cases hcmp : a.get ⟨mid.toNat, hmidlt⟩ < x
      · rw [if_pos hcmp]
        exact ih (mid + 1) right (by omega) hr
      · rw [if_neg hcmp]
        exact ih left (mid - 1) h0 (by omega)
    · rw [bsearchLoop, if_neg hlr]

/-- C6: on a strictly ascending array, `find_internal_id` returns the
position of a present key and the sentinel `-1` for an absent one; in
particular on `[100, 200, 300, 400, 500]` it returns `2` for `300` and
`-1` for `250`. -/
theorem find_internal_id_spec (a : List Int) (x : Int) (hs : a.Pairwise (· < ·)) :
    (∀ i : Nat, ∀ hi : i < a.length, a.get ⟨i, hi⟩ = x →
      find_internal_id a x = (i : Int)) ∧
    (x ∉ a → find_internal_id a x = -1) ∧
    find_internal_id [100, 200, 300, 400, 500] 300 = 2 ∧
    find_internal_id [100, 200, 300, 400, 500] 250 = -1 := by
  refine ⟨?_, ?_, by decide, by decide⟩
  · intro i hi hx
    exact bsearchLoop_found a x hs (a.length + 1) 0 ((a.length : Int) - 1) i hi hx
      le_rfl (by omega) (by omega) (by omega) (by omega)
  · intro hx
    exact bsearchLoop_notMem a x hx (a.length + 1) 0 ((a.length : Int) - 1)
      le_rfl (by omega)

/-- C6 witness: the two concrete lookups on the sorted array of the test,
with the strict-ascending hypothesis discharged by evaluation. -/
theorem find_internal_id_spec_witness :
    find_internal_id [100, 200, 300, 400, 500] 300 = 2 ∧
    find_internal_id [100, 200, 300, 400, 500] 250 = -1 :=
  ⟨(find_internal_id_spec [100, 200, 300, 400, 500] 300 (by decide)).2.2.1,
   (find_internal_id_spec [100, 200, 300, 400, 500] 250 (by decide)).2.2.2⟩

/-- The `first_edge` CSR array of `test_csr_graph_traversal`. -/
def first_edge : List Nat := [0, 2, 3, 4, 4]

/-- The `edge_target` CSR array of `test_csr_graph_traversal`. -/
def edge_target : List Nat := [1, 2, 2, 3]

/-- Neighbor range of node `n`: the pair of array reads
`(first_edge[n], first_edge[n+1])`; `none` when a read is out of range. -/
def neighbors (fe : List Nat) (n : Nat) : Option (Nat × Nat) :=
  match fe[n]?, fe[n + 1]? with
  | some s, some e => some (s, e)
  | _, _ => none

/-- Edge targets of node `n`, read elementwise over the half-open range as
the test's loop `for i in range(start, end)` does. -/
def neighborTargets (fe et : List Nat) (n : Nat) : List Nat :=
  match neighbors fe n with
  | some (s, e) => (List.range (e - s)).map (fun k => et.getD (s + k) 0)
  | none => []

/-- C7: with `first_edge = [0,2,3,4,4]` and `edge_target = [1,2,2,3]`,
node 0's neighbor range is `(0, 2)` with targets `[1, 2]`, and node 3 is
in range with the empty neighbor range `(4, 4)` of length 0 rather than a
failure. -/
theorem csr_neighbors_example :
    neighbors first_edge 0 = some (0, 2) ∧
    neighborTargets first_edge edge_target 0 = [1, 2] ∧
    neighbors first_edge 3 = some (4, 4) ∧
    neighborTargets first_edge edge_target 3 = [] ∧
    (neighborTargets first_edge edge_target 3).length = 0 := by
  refine ⟨rfl, rfl, rfl, rfl, rfl⟩

end TARO
